import Mathlib

/-!
Shallow embedding of the statistical core of the `exms` repository
(src/exam/statistics.rs, src/exam/mod.rs, src/exam/plot.rs).

Modelling conventions:
* `f32` grades and percentiles are modelled as exact rationals (`ℚ`); the
  algorithms only compare grades and perform exact-in-ℚ arithmetic on them.
* A non-finite `f32` result (NaN or an infinity, as produced by dividing by
  zero) is modelled as `none` in an `Option ℚ`; `f32div` below is the model
  of `f32` division.
* The `f32::sqrt` used by the standard deviation is modelled as `Real.sqrt`.
* Rust's stable slice sorts (`sort_by`, `sort_by_key`) are modelled by
  `List.insertionSort`, a stable sort: a stable sort's output is uniquely
  determined by the comparator and the input order, so any stable sort
  models Rust's stable merge sort extensionally.
* The two in-place index-directed writes of `attach_rank` /
  `attach_percentile` (each original index is written exactly once) are
  modelled by looking the index up in the association list of
  (original index, computed value) pairs produced by the sorted walk.
-/

namespace Exms

/-- Model of `Student` (src/exam/student.rs together with the fields used by
src/exam/statistics.rs): a name, a grade, and the optional rank and
percentile attached by the engine. -/
structure Student where
  name : String
  grade : ℚ
  rank : Option ℕ
  percentile : Option ℚ
deriving DecidableEq, Repr

instance : Inhabited Student := ⟨⟨"", 0, none, none⟩⟩

/-- Model of `mean` (statistics.rs): sum of grades divided by the number of
students, 0 for an empty slice. -/
def mean (students : List Student) : ℚ :=
  if students.length = 0 then 0
  else (students.map (fun s => s.grade)).sum / (students.length : ℚ)

/-- Model of `median` (statistics.rs): sort the grades ascending; average the
two middle grades for an even count, take the middle grade for an odd count;
0 for an empty slice. -/
def median (students : List Student) : ℚ :=
  if students.length = 0 then 0
  else
    let grades := (students.map (fun s => s.grade)).insertionSort (fun a b => a ≤ b)
    if students.length % 2 = 0 then
      (grades.getD (students.length / 2 - 1) 0 + grades.getD (students.length / 2) 0) / 2
    else
      grades.getD (students.length / 2) 0

/-- Model of `passed_students` (statistics.rs): the number of students whose
grade is at least half of the configured maximum grade. -/
def passed_students (students : List Student) (max_grade : ℚ) : ℕ :=
  students.countP (fun s => decide (max_grade / 2 ≤ s.grade))

/-- Model of `std_deviation` (statistics.rs): square root of the mean squared
deviation (population variance), 0 for an empty slice. -/
noncomputable def std_deviation (students : List Student) (mean : ℚ) : ℝ :=
  if students.length = 0 then 0
  else Real.sqrt (((students.map (fun s => (s.grade - mean) ^ 2)).sum / (students.length : ℚ) : ℚ) : ℝ)

/-- Model of `max_student_grade` (statistics.rs): the maximum grade present,
0 for an empty slice. -/
def max_student_grade (students : List Student) : ℚ :=
  match students.map (fun s => s.grade) with
  | [] => 0
  | g :: gs => gs.foldl max g

/-- Model of `min_student_grade` (statistics.rs): the minimum grade present,
0 for an empty slice. -/
def min_student_grade (students : List Student) : ℚ :=
  match students.map (fun s => s.grade) with
  | [] => 0
  | g :: gs => gs.foldl min g

/-- Model of `highest_rank` (statistics.rs): the maximum rank value present
(each absent rank read as 0), 0 for an empty slice. -/
def highest_rank (students : List Student) : ℕ :=
  (students.map (fun s => s.rank.getD 0)).foldl max 0

/-- The rank the loop body of `attach_rank` (statistics.rs) assigns to the
current grade `g`: the previous rank when the grade ties the previous grade,
otherwise the incremented distinct-grade counter. -/
def rankVal (rank : ℕ) (lastGrade : Option ℚ) (lastRank : Option ℕ) (g : ℚ) : ℕ :=
  match lastGrade with
  | some lg => if g = lg then lastRank.getD 0 else rank + 1
  | none => rank + 1

/-- The distinct-grade counter after the loop body of `attach_rank`
(statistics.rs): unchanged on a tie, incremented otherwise. -/
def rankNext (rank : ℕ) (lastGrade : Option ℚ) (g : ℚ) : ℕ :=
  match lastGrade with
  | some lg => if g = lg then rank else rank + 1
  | none => rank + 1

/-- Model of the loop of `attach_rank` (statistics.rs): walk the students in
grade-descending order carrying the distinct-grade counter `rank`, the last
seen grade and the last assigned rank. -/
def rankWalk (rank : ℕ) (lastGrade : Option ℚ) (lastRank : Option ℕ) :
    List Student → List ℕ
  | [] => []
  | s :: rest =>
    rankVal rank lastGrade lastRank s.grade ::
      rankWalk (rankNext rank lastGrade s.grade) (some s.grade)
        (some (rankVal rank lastGrade lastRank s.grade)) rest

/-- Model of the index sort of `attach_rank` (statistics.rs): the indices
(paired with their students) sorted stably by grade descending. -/
def sortPairsDesc (students : List Student) : List (ℕ × Student) :=
  (students.enum).insertionSort (fun a b => b.2.grade ≤ a.2.grade)

/-- The students of `sortPairsDesc`, i.e. the store read in grade-descending
order. -/
def sortedDescStudents (students : List Student) : List Student :=
  (sortPairsDesc students).map (fun p => p.2)

/-- The rank values assigned by the walk of `attach_rank`, in grade-descending
order. -/
def ranksDesc (students : List Student) : List ℕ :=
  rankWalk 0 none none (sortedDescStudents students)

/-- One write-back of a computed value to the student at an original index:
write the value the index is associated with, keep the student unchanged
when the index is absent (in the engine every index is present exactly
once). -/
def writeBack {β : Type _} (upd : Student → β → Student) (assoc : List (ℕ × β))
    (p : ℕ × Student) : Student :=
  match assoc.lookup p.1 with
  | some v => upd p.2 v
  | none => p.2

/-- Model of `attach_rank` (statistics.rs): sort the indices by grade
descending, walk them assigning competition ranks, and write each computed
rank back to the student at its original index. -/
def attach_rank (students : List Student) : List Student :=
  students.enum.map (writeBack (fun s r => { s with rank := some r })
    (((sortPairsDesc students).map (fun p => p.1)).zip (ranksDesc students)))

/-- Model of the loop of `attach_percentile` (statistics.rs): walk the
students in grade-ascending order carrying the enumeration index, the last
seen grade and the last assigned percentile; a student tied with the previous
grade receives the previous percentile, a student holding the maximum grade
receives 100, and any other student at ascending position `index` receives
`index / (n - 1) * 100`. -/
def pctVal (n : ℕ) (maxGrade : ℚ) (index : ℕ) (lastGrade lastPct : Option ℚ)
    (g : ℚ) : ℚ :=
  match lastGrade with
  | some lg =>
    if g = lg then lastPct.getD 0
    else if g = maxGrade then 100
    else (index : ℚ) / ((n - 1 : ℕ) : ℚ) * 100
  | none =>
    if g = maxGrade then 100
    else (index : ℚ) / ((n - 1 : ℕ) : ℚ) * 100

/-- The walk of `attach_percentile` (statistics.rs), emitting the percentile
of each student in grade-ascending order. -/
def pctWalk (n : ℕ) (maxGrade : ℚ) (index : ℕ) (lastGrade lastPct : Option ℚ) :
    List Student → List ℚ
  | [] => []
  | s :: rest =>
    pctVal n maxGrade index lastGrade lastPct s.grade ::
      pctWalk n maxGrade (index + 1) (some s.grade)
        (some (pctVal n maxGrade index lastGrade lastPct s.grade)) rest

/-- Model of the index sort of `attach_percentile` (statistics.rs): the
indices (paired with their students) sorted stably by grade ascending. -/
def sortPairsAsc (students : List Student) : List (ℕ × Student) :=
  (students.enum).insertionSort (fun a b => a.2.grade ≤ b.2.grade)

/-- The students of `sortPairsAsc`, i.e. the store read in grade-ascending
order. -/
def sortedAscStudents (students : List Student) : List Student :=
  (sortPairsAsc students).map (fun p => p.2)

/-- The percentiles assigned by the walk of `attach_percentile`, in
grade-ascending order. -/
def percentilesAsc (students : List Student) : List ℚ :=
  pctWalk students.length (max_student_grade students) 0 none none
    (sortedAscStudents students)

/-- Model of `attach_percentile` (statistics.rs): compute the maximum grade,
sort the indices by grade ascending, walk them assigning percentiles, and
write each computed percentile back to the student at its original index. -/
def attach_percentile (students : List Student) : List Student :=
  students.enum.map (writeBack (fun s q => { s with percentile := some q })
    (((sortPairsAsc students).map (fun p => p.1)).zip (percentilesAsc students)))

/-- Model of `f32` division: `none` stands for the non-finite result (NaN or
an infinity) that IEEE division produces when the divisor is zero. -/
def f32div (a b : ℚ) : Option ℚ :=
  if b = 0 then none else some (a / b)

/-- Model of the `ExamStatistics` record (statistics.rs). `pass_rate` is an
`Option ℚ` because the `f32` quotient it is computed from can be NaN. -/
structure ExamStatisticsR where
  total_students : ℕ
  passed_students : ℕ
  failed_students : ℕ
  pass_rate : Option ℚ
  mean : ℚ
  median : ℚ
  std_dev : ℝ
  max_grade : ℚ
  highest_grade : ℚ
  lowest_grade : ℚ
  highest_rank : ℕ

/-- Model of `ExamStatistics::new` (statistics.rs): attach ranks and
percentiles, then compute every aggregate from the annotated store.
`pass_rate` is `passed / total * 100` with no guard for an empty store, so on
an empty store the division is `0 / 0`, a NaN (modelled as `none`). -/
noncomputable def ExamStatisticsR.new (students : List Student) (max_grade : ℚ) :
    ExamStatisticsR :=
  let annotated := attach_percentile (attach_rank students)
  let total := annotated.length
  let passed := Exms.passed_students annotated max_grade
  { total_students := total
    passed_students := passed
    failed_students := total - passed
    pass_rate := (f32div (passed : ℚ) (total : ℚ)).map (fun q => q * 100)
    mean := Exms.mean annotated
    median := Exms.median annotated
    std_dev := Exms.std_deviation annotated (Exms.mean annotated)
    max_grade := max_grade
    highest_grade := Exms.max_student_grade annotated
    lowest_grade := Exms.min_student_grade annotated
    highest_rank := Exms.highest_rank annotated }

/-- Model of Rust `char` lowercasing as used by `str::to_lowercase`
(an external collaborator of the core), on the Basic Latin and Latin-1
ranges that the repository's data uses: ASCII uppercase letters and Latin-1
uppercase letters map 32 code points up, everything else is unchanged. -/
def rustLowerChar (c : Char) : Char :=
  if 'A' ≤ c ∧ c ≤ 'Z' then Char.ofNat (c.toNat + 32)
  else if 'À' ≤ c ∧ c ≤ 'Þ' ∧ c ≠ '×' then Char.ofNat (c.toNat + 32)
  else c

/-- The sort key of `sort_by_alphabetic_order` (mod.rs): the lowercased
name, as a list of characters. -/
def lowerName (s : String) : List Char := s.data.map rustLowerChar

/-- Lexicographic less-or-equal on character lists: the model of Rust's
`Ord` for strings (byte order on UTF-8 coincides with code-point order). -/
def lexLe : List Char → List Char → Bool
  | [], _ => true
  | _ :: _, [] => false
  | a :: as, b :: bs => if a < b then true else if b < a then false else lexLe as bs

/-- Model of `Exam::sort_by_alphabetic_order` (mod.rs): stable sort by the
lowercased name ascending. The source carries a
`TODO: make it work with accents`; no accent folding is performed. -/
def sort_by_alphabetic_order (students : List Student) : List Student :=
  students.insertionSort (fun a b => lexLe (lowerName a.name) (lowerName b.name) = true)

/-- Model of `Exam::sort_by_grade` (mod.rs): first stable-sort by lowercased
name ascending, then stable-sort by grade descending. -/
def sort_by_grade (students : List Student) : List Student :=
  (sort_by_alphabetic_order students).insertionSort (fun a b => b.grade ≤ a.grade)

/-- Accent folding as the specification words it: diacritics folded to base
Latin letters (so "á" compares as "a"). This is the specification's claimed
comparator, written to be compared with the source's `lowerName`; the source
does not fold accents. -/
def specFoldChar (c : Char) : Char :=
  if c ∈ ['à', 'á', 'â', 'ã', 'ä', 'å'] then 'a'
  else if c = 'ç' then 'c'
  else if c ∈ ['è', 'é', 'ê', 'ë'] then 'e'
  else if c ∈ ['ì', 'í', 'î', 'ï'] then 'i'
  else if c = 'ñ' then 'n'
  else if c ∈ ['ò', 'ó', 'ô', 'õ', 'ö'] then 'o'
  else if c ∈ ['ù', 'ú', 'û', 'ü'] then 'u'
  else if c ∈ ['ý', 'ÿ'] then 'y'
  else c

/-- The tie-break key the specification claims for the grade sort:
case-insensitive and accent-normalized. -/
def specFoldName (s : String) : List Char := (lowerName s).map specFoldChar

/-- The grade sort as the specification words it: stable sort by the
accent-normalized, lowercased name ascending, then stable sort by grade
descending. -/
def specSortByGrade (students : List Student) : List Student :=
  (students.insertionSort
      (fun a b => lexLe (specFoldName a.name) (specFoldName b.name) = true)).insertionSort
    (fun a b => b.grade ≤ a.grade)

/-- Model of the effective maximum grade of `histogram` (plot.rs): the
closure run for each student replaces a configured maximum of 0 by 0.1, so
the replacement takes effect exactly when the store is non-empty. -/
def histEffMax (students : List Student) (maxGrade : ℚ) : ℚ :=
  if maxGrade = 0 ∧ students ≠ [] then 1 / 10 else maxGrade

/-- Model of the per-grade mapping of `histogram` (plot.rs): a grade above
the maximum is clamped to `max - 0.01`, a grade equal to the maximum is
lowered to `grade - 0.01` (both so that the grade lands in the last bucket),
any other grade is unchanged. -/
def histMapGrade (maxGrade g : ℚ) : ℚ :=
  if g > maxGrade then maxGrade - 1 / 100
  else if g = maxGrade then g - 1 / 100
  else g

/-- The clamped grades `histogram` (plot.rs) buckets. -/
def histGrades (students : List Student) (maxGrade : ℚ) : List ℚ :=
  students.map (fun s => histMapGrade maxGrade s.grade)

/-- Model of the overflow flag of `histogram` (plot.rs): set exactly when
some grade exceeds the (effective) maximum grade. -/
def histOverflowFlag (students : List Student) (maxGrade : ℚ) : Bool :=
  students.any (fun s => decide (s.grade > maxGrade))

/-- Model of the bucket count of `histogram` (plot.rs):
`ceil(max_grade / step)` buckets, each of width `step`. -/
def histNumBuckets (maxGrade step : ℚ) : ℕ := (⌈maxGrade / step⌉).toNat

/-- Model of the bucket selection of `histogram` (plot.rs):
`floor(grade / step)`, with the `f64`-to-`usize` cast saturating negative
values to 0. -/
def bucketIdx (step g : ℚ) : ℕ := (⌊g / step⌋).toNat

/-- One `buckets[bucket] += 1` of `histogram` (plot.rs); `none` models the
out-of-bounds panic. -/
def bumpBucket (bs : List ℕ) (i : ℕ) : Option (List ℕ) :=
  if i < bs.length then some (bs.set i (bs.getD i 0 + 1)) else none

/-- The counting loop of `histogram` (plot.rs). -/
def fillBuckets (step : ℚ) : List ℚ → List ℕ → Option (List ℕ)
  | [], bs => some bs
  | g :: gs, bs =>
    match bumpBucket bs (bucketIdx step g) with
    | some next => fillBuckets step gs next
    | none => none

/-- Model of `histogram` (plot.rs), reduced to its algorithmic content: the
bucket counts and the overflow flag. The step defaults to 1. The function
only reads the store; the clamped grades exist only inside it. -/
def histogram (students : List Student) (maxGrade : ℚ) (step? : Option ℚ) :
    Option (List ℕ × Bool) :=
  let step := step?.getD 1
  let maxg := histEffMax students maxGrade
  (fillBuckets step (histGrades students maxg)
      (List.replicate (histNumBuckets maxg step) 0)).map
    (fun bs => (bs, histOverflowFlag students maxg))

/-- Number of students with a grade strictly below `g`; in the
grade-ascending order this is the first index of the tie group of `g`. -/
def countLT (students : List Student) (g : ℚ) : ℕ :=
  students.countP (fun t => decide (t.grade < g))

/-- The distinct grade values strictly above `g`. -/
def distinctGT (students : List Student) (g : ℚ) : Finset ℚ :=
  (students.map (fun s => s.grade)).toFinset.filter (fun x => g < x)

/-- Closed form of the rank `attach_rank` assigns to a grade `g`: one more
than the number of distinct grade values strictly above `g` (dense
competition ranking). -/
def rkC (students : List Student) (g : ℚ) : ℕ :=
  (distinctGT students g).card + 1

/-- Closed form of the percentile assigned to a grade `g`, parametric in the
maximum grade, the total count and the list counted over: 100 for the
maximum grade, otherwise the number of strictly lower grades divided by
`n - 1`, times 100. -/
def pctF (maxGrade : ℚ) (n : ℕ) (full : List Student) (g : ℚ) : ℚ :=
  if g = maxGrade then 100
  else (countLT full g : ℚ) / ((n - 1 : ℕ) : ℚ) * 100

/-- Closed form of the percentile `attach_percentile` assigns to a grade
`g` of the given store. -/
def pctC (students : List Student) (g : ℚ) : ℚ :=
  pctF (max_student_grade students) students.length students g

/-- The composite run of the engine as `ExamStatistics::new` performs it:
ranks first, then percentiles. -/
def annotate (students : List Student) : List Student :=
  attach_percentile (attach_rank students)

section Helpers

lemma foldl_max_le_iff {b x : ℚ} : ∀ {l : List ℚ}, x ≤ l.foldl max b ↔ x ≤ b ∨ ∃ y ∈ l, x ≤ y := by
  intro l
  induction l generalizing b with
  | nil => simp
  | cons a t ih =>
    simp only [List.foldl_cons, ih, le_max_iff, List.mem_cons]
    aesop

/-- Every grade present in the store is bounded by `max_student_grade`. -/
lemma grade_le_max_student_grade {students : List Student} {s : Student}
    (hs : s ∈ students) : s.grade ≤ max_student_grade students := by
  unfold max_student_grade
  have : s.grade ∈ students.map (fun t => t.grade) := List.mem_map_of_mem _ hs
  cases hgr : students.map (fun t => t.grade) with
  | nil => rw [hgr] at this; exact absurd this (List.not_mem_nil _)
  | cons g gs =>
    rw [hgr] at this
    rcases List.mem_cons.mp this with h | h
    · exact foldl_max_le_iff.mpr (Or.inl h.le)
    · exact foldl_max_le_iff.mpr (Or.inr ⟨s.grade, h, le_refl _⟩)

/-- In a pairwise-related list, every element is the last element or is
related to it. -/
lemma pairwise_getLast_rel {α : Type _} {r : α → α → Prop} {l : List α}
    (h : List.Pairwise r l) (hne : l ≠ []) {a : α} (ha : a ∈ l) :
    a = l.getLast hne ∨ r a (l.getLast hne) := by
  have hd : l.dropLast ++ [l.getLast hne] = l := List.dropLast_append_getLast hne
  rw [← hd] at h ha
  rcases List.mem_append.mp ha with h1 | h1
  · exact Or.inr ((List.pairwise_append.mp h).2.2 a h1 _ (List.mem_singleton_self _))
  · exact Or.inl (List.mem_singleton.mp h1)

/-- Looking a key up in an association list with pairwise-distinct keys
returns the value it is paired with. -/
lemma lookup_eq_some_of_mem {β : Type _} :
    ∀ {l : List (ℕ × β)} {k : ℕ} {v : β},
      (l.map (fun p => p.1)).Nodup → (k, v) ∈ l → l.lookup k = some v := by
  intro l
  induction l with
  | nil => intro k v _ hm; exact absurd hm (List.not_mem_nil _)
  | cons p t ih =>
    intro k v hnd hm
    rcases List.mem_cons.mp hm with h | h
    · rw [← h]
      simp [List.lookup]
    · have hk : k ≠ p.1 := by
        intro hkp
        have : k ∈ t.map (fun q => q.1) := List.mem_map_of_mem _ h
        rw [List.map_cons] at hnd
        exact (List.nodup_cons.mp hnd).1 (hkp ▸ this)
      have : (k == p.1) = false := beq_eq_false_iff_ne.mpr hk
      cases p with
      | mk a b =>
        rw [List.lookup_cons]
        simp only at this
        rw [this]
        exact ih (List.nodup_cons.mp (by rw [List.map_cons] at hnd; exact hnd)).2 h

lemma length_pctWalk (n : ℕ) (maxg : ℚ) :
    ∀ (i : ℕ) (lg lp : Option ℚ) (l : List Student),
      (pctWalk n maxg i lg lp l).length = l.length := by
  intro i lg lp l
  induction l generalizing i lg lp with
  | nil => rfl
  | cons s rest ih => simp [pctWalk, ih]

lemma length_rankWalk :
    ∀ (r : ℕ) (lg : Option ℚ) (lr : Option ℕ) (l : List Student),
      (rankWalk r lg lr l).length = l.length := by
  intro r lg lr l
  induction l generalizing r lg lr with
  | nil => rfl
  | cons s rest ih => simp [rankWalk, ih]

lemma sortPairsAsc_perm (students : List Student) :
    (sortPairsAsc students).Perm students.enum :=
  List.perm_insertionSort _ _

lemma sortPairsDesc_perm (students : List Student) :
    (sortPairsDesc students).Perm students.enum :=
  List.perm_insertionSort _ _

lemma sortedAscStudents_perm (students : List Student) :
    (sortedAscStudents students).Perm students := by
  have h := (sortPairsAsc_perm students).map (fun p : ℕ × Student => p.2)
  rwa [show students.enum.map (fun p : ℕ × Student => p.2) = students from
    List.enum_map_snd students] at h

lemma sortedDescStudents_perm (students : List Student) :
    (sortedDescStudents students).Perm students := by
  have h := (sortPairsDesc_perm students).map (fun p : ℕ × Student => p.2)
  rwa [show students.enum.map (fun p : ℕ × Student => p.2) = students from
    List.enum_map_snd students] at h

lemma sortedAscStudents_sorted (students : List Student) :
    List.Pairwise (fun a b : Student => a.grade ≤ b.grade)
      (sortedAscStudents students) := by
  haveI : IsTotal (ℕ × Student) (fun a b => a.2.grade ≤ b.2.grade) :=
    ⟨fun a b => le_total _ _⟩
  haveI : IsTrans (ℕ × Student) (fun a b => a.2.grade ≤ b.2.grade) :=
    ⟨fun a b c h1 h2 => le_trans h1 h2⟩
  have h := List.sorted_insertionSort
    (fun a b : ℕ × Student => a.2.grade ≤ b.2.grade) students.enum
  rw [sortedAscStudents, List.pairwise_map]
  exact h

lemma sortedDescStudents_sorted (students : List Student) :
    List.Pairwise (fun a b : Student => b.grade ≤ a.grade)
      (sortedDescStudents students) := by
  haveI : IsTotal (ℕ × Student) (fun a b => b.2.grade ≤ a.2.grade) :=
    ⟨fun a b => le_total _ _⟩
  haveI : IsTrans (ℕ × Student) (fun a b => b.2.grade ≤ a.2.grade) :=
    ⟨fun a b c h1 h2 => le_trans h2 h1⟩
  have h := List.sorted_insertionSort
    (fun a b : ℕ × Student => b.2.grade ≤ a.2.grade) students.enum
  rw [sortedDescStudents, List.pairwise_map]
  exact h

end Helpers

section WalkCharacterization

/-- Invariant-carrying characterization of the percentile walk over a
grade-ascending list: every emitted percentile is the closed form `pctF`. -/
lemma pctWalk_char_aux (maxg : ℚ) (n : ℕ) (full : List Student)
    (hs : List.Pairwise (fun a b : Student => a.grade ≤ b.grade) full)
    (l : List Student) :
    ∀ (pre : List Student) (lg lp : Option ℚ),
      full = pre ++ l →
      (pre = [] → lg = none) →
      (∀ (hq : pre ≠ []), lg = some ((pre.getLast hq).grade) ∧
          lp = some (pctF maxg n full ((pre.getLast hq).grade))) →
      pctWalk n maxg pre.length lg lp l
        = l.map (fun s => pctF maxg n full s.grade) := by
  induction l with
  | nil => intro pre lg lp _ _ _; rfl
  | cons s rest ih =>
    intro pre lg lp hfull h0 hlast
    have hsplit := List.pairwise_append.mp (hfull ▸ hs)
    have hpre : List.Pairwise (fun a b : Student => a.grade ≤ b.grade) pre := hsplit.1
    have hl : List.Pairwise (fun a b : Student => a.grade ≤ b.grade) (s :: rest) :=
      hsplit.2.1
    have hcross : ∀ a ∈ pre, ∀ b ∈ s :: rest, a.grade ≤ b.grade := hsplit.2.2
    have hrest : ∀ t ∈ rest, s.grade ≤ t.grade := (List.pairwise_cons.mp hl).1
    -- the emitted percentile is the closed form
    have hhead : pctVal n maxg pre.length lg lp s.grade = pctF maxg n full s.grade := by
      by_cases hpe : pre = []
      · subst hpe
        rw [h0 rfl]
        have hcnt : countLT full s.grade = 0 := by
          rw [countLT, List.countP_eq_zero]
          intro t ht
          simp only [decide_eq_true_eq, not_lt]
          rw [hfull] at ht
          rcases List.mem_cons.mp ht with h | h
          · exact le_of_eq (by rw [h])
          · exact le_trans (le_refl _) (hrest t h)
        simp [pctVal, pctF, hcnt]
      · obtain ⟨hlg, hlp⟩ := hlast hpe
        set q := pre.getLast hpe with hq
        by_cases htie : s.grade = q.grade
        · rw [hlg, hlp]
          simp only [pctVal]
          rw [if_pos htie, Option.getD_some, htie]
        · have hql : q.grade ≤ s.grade :=
            hcross q (List.getLast_mem hpe) s (List.mem_cons_self _ _)
          have hqs : q.grade < s.grade := lt_of_le_of_ne hql (fun h => htie h.symm)
          have hcnt : countLT full s.grade = pre.length := by
            rw [countLT, hfull, List.countP_append]
            have h1 : List.countP (fun t => decide (t.grade < s.grade)) pre
                = pre.length := by
              rw [List.countP_eq_length]
              intro a ha
              simp only [decide_eq_true_eq]
              rcases pairwise_getLast_rel hpre hpe ha with h | h
              · rw [h]; exact hqs
              · exact lt_of_le_of_lt h hqs
            have h2 : List.countP (fun t => decide (t.grade < s.grade)) (s :: rest)
                = 0 := by
              rw [List.countP_eq_zero]
              intro t ht
              simp only [decide_eq_true_eq, not_lt]
              rcases List.mem_cons.mp ht with h | h
              · exact le_of_eq (by rw [h])
              · exact hrest t h
            rw [h1, h2]
            omega
          rw [hlg]
          simp only [pctVal, if_neg (fun h : s.grade = q.grade => htie h)]
          rw [pctF, hcnt]
    rw [pctWalk, hhead, List.map_cons]
    congr 1
    have := ih (pre ++ [s]) (some s.grade) (some (pctF maxg n full s.grade))
      (by rw [hfull]; simp)
      (by intro h; exact absurd h (by simp))
      (by
        intro hq
        constructor
        · rw [List.getLast_concat]
        · rw [List.getLast_concat])
    rw [List.length_append] at this
    simpa using this

/-- Invariant-carrying characterization of the rank walk over a
grade-descending list: every emitted rank is the closed form `rkC`. -/
lemma rankWalk_char_aux (full : List Student)
    (hs : List.Pairwise (fun a b : Student => b.grade ≤ a.grade) full)
    (l : List Student) :
    ∀ (pre : List Student) (r : ℕ) (lg : Option ℚ) (lr : Option ℕ),
      full = pre ++ l →
      r = ((pre.map (fun s => s.grade)).toFinset).card →
      (pre = [] → lg = none) →
      (∀ (hq : pre ≠ []), lg = some ((pre.getLast hq).grade) ∧
          lr = some (rkC full ((pre.getLast hq).grade))) →
      rankWalk r lg lr l = l.map (fun s => rkC full s.grade) := by
  induction l with
  | nil => intro pre r lg lr _ _ _ _; rfl
  | cons s rest ih =>
    intro pre r lg lr hfull hr h0 hlast
    have hsplit := List.pairwise_append.mp (hfull ▸ hs)
    have hpre : List.Pairwise (fun a b : Student => b.grade ≤ a.grade) pre := hsplit.1
    have hl : List.Pairwise (fun a b : Student => b.grade ≤ a.grade) (s :: rest) :=
      hsplit.2.1
    have hcross : ∀ a ∈ pre, ∀ b ∈ s :: rest, b.grade ≤ a.grade := hsplit.2.2
    have hrest : ∀ t ∈ rest, t.grade ≤ s.grade := (List.pairwise_cons.mp hl).1
    by_cases hpe : pre = []
    · -- no previous grade: emit r + 1 = 1
      subst hpe
      simp only [List.map_nil, List.toFinset_nil, Finset.card_empty] at hr
      have hrk : rkC full s.grade = 1 := by
        rw [rkC, distinctGT]
        have : ((full.map (fun s => s.grade)).toFinset.filter
            (fun x => s.grade < x)) = ∅ := by
          rw [Finset.filter_eq_empty_iff]
          intro x hx
          rw [List.mem_toFinset] at hx
          obtain ⟨t, ht, hteq⟩ := List.mem_map.mp hx
          rw [hfull] at ht
          simp only [not_lt, ← hteq]
          rcases List.mem_cons.mp ht with h | h
          · exact le_of_eq (by rw [h])
          · exact hrest t h
        rw [this, Finset.card_empty]
      have hval : rankVal r lg lr s.grade = rkC full s.grade := by
        rw [h0 rfl]
        simp only [rankVal]
        rw [hr, hrk]
      have hnext : rankNext r lg s.grade = rkC full s.grade := by
        rw [h0 rfl]
        simp only [rankNext]
        rw [hr, hrk]
      rw [rankWalk, hval, hnext, List.map_cons]
      congr 1
      exact ih [s] (rkC full s.grade) (some s.grade) (some (rkC full s.grade))
        (by rw [hfull]; simp)
        (by simp [hrk])
        (by intro h; exact absurd h (by simp))
        (by intro hq; exact ⟨rfl, rfl⟩)
    · obtain ⟨hlg, hlr⟩ := hlast hpe
      set q := pre.getLast hpe with hqdef
      have hqmem : q ∈ pre := List.getLast_mem hpe
      have hqdom : ∀ a ∈ pre, q.grade ≤ a.grade := by
        intro a ha
        rcases pairwise_getLast_rel hpre hpe ha with h | h
        · rw [h]
        · exact h
      have hsq : s.grade ≤ q.grade := hcross q hqmem s (List.mem_cons_self _ _)
      by_cases htie : s.grade = q.grade
      · -- tie: emit the previous rank, state unchanged
        have hval : rankVal r lg lr s.grade = rkC full s.grade := by
          rw [hlg, hlr]
          simp only [rankVal]
          rw [if_pos htie, Option.getD_some, htie]
        have hnext : rankNext r lg s.grade = r := by
          rw [hlg]; simp only [rankNext, if_pos htie]
        have hfin : ((pre ++ [s]).map (fun s => s.grade)).toFinset
            = ((pre.map (fun s => s.grade)).toFinset) := by
          rw [List.map_append, List.toFinset_append]
          simp only [List.map_cons, List.map_nil, List.toFinset_cons, List.toFinset_nil]
          have : s.grade ∈ (pre.map (fun s => s.grade)).toFinset := by
            rw [List.mem_toFinset, htie]
            exact List.mem_map_of_mem _ hqmem
          rw [Finset.union_comm]
          simpa [Finset.insert_eq_self] using this
        rw [rankWalk, hval, hnext, List.map_cons]
        congr 1
        have := ih (pre ++ [s]) r (some s.grade) (some (rkC full s.grade))
          (by rw [hfull]; simp)
          (by rw [hfin]; exact hr)
          (by intro h; exact absurd h (by simp))
          (by intro hq; rw [List.getLast_concat]; exact ⟨rfl, rfl⟩)
        simpa using this
      · -- new grade: emit r + 1
        have hqs : s.grade < q.grade := lt_of_le_of_ne hsq htie
        have hset : distinctGT full s.grade = (pre.map (fun s => s.grade)).toFinset := by
          rw [distinctGT]
          ext x
          simp only [Finset.mem_filter, List.mem_toFinset, List.mem_map]
          constructor
          · rintro ⟨⟨t, ht, hteq⟩, hlt⟩
            rw [hfull] at ht
            rcases List.mem_append.mp ht with h | h
            · exact ⟨t, h, hteq⟩
            · rcases List.mem_cons.mp h with h2 | h2
              · exact absurd (hteq ▸ hlt) (by rw [h2]; exact lt_irrefl _)
              · exact absurd (hteq ▸ hlt) (not_lt.mpr (hrest t h2))
          · rintro ⟨a, ha, haeq⟩
            refine ⟨⟨a, by rw [hfull]; exact List.mem_append.mpr (Or.inl ha), haeq⟩, ?_⟩
            rw [← haeq]
            exact lt_of_lt_of_le hqs (hqdom a ha)
        have hrk : rkC full s.grade = r + 1 := by
          rw [rkC, hset, hr]
        have hval : rankVal r lg lr s.grade = r + 1 := by
          rw [hlg]; simp only [rankVal, if_neg htie]
        have hnext : rankNext r lg s.grade = r + 1 := by
          rw [hlg]; simp only [rankNext, if_neg htie]
        have hnew : s.grade ∉ (pre.map (fun s => s.grade)).toFinset := by
          rw [List.mem_toFinset]
          intro hmem
          obtain ⟨a, ha, haeq⟩ := List.mem_map.mp hmem
          exact absurd (lt_of_lt_of_le hqs (haeq ▸ hqdom a ha)) (lt_irrefl _)
        have hfin : (((pre ++ [s]).map (fun s => s.grade)).toFinset).card = r + 1 := by
          rw [List.map_append, List.toFinset_append]
          have hsing : (List.map (fun s => s.grade) [s]).toFinset = {s.grade} := by simp
          rw [hsing, Finset.union_comm, ← Finset.insert_eq]
          rw [Finset.card_insert_of_not_mem hnew, hr]
        rw [rankWalk, hval, hnext, List.map_cons, ← hrk]
        congr 1
        exact ih (pre ++ [s]) (rkC full s.grade) (some s.grade) (some (rkC full s.grade))
          (by rw [hfull]; simp)
          (by rw [hfin, hrk])
          (by intro h; exact absurd h (by simp))
          (by intro hq; rw [List.getLast_concat]; exact ⟨rfl, rfl⟩)

end WalkCharacterization

section AttachClosedForms

lemma countLT_perm {l₁ l₂ : List Student} (h : l₁.Perm l₂) (g : ℚ) :
    countLT l₁ g = countLT l₂ g :=
  h.countP_eq _

lemma pctF_congr_list {maxg : ℚ} {n : ℕ} {l₁ l₂ : List Student}
    (h : l₁.Perm l₂) (g : ℚ) : pctF maxg n l₁ g = pctF maxg n l₂ g := by
  rw [pctF, pctF, countLT_perm h]

lemma rkC_congr_list {l₁ l₂ : List Student} (h : l₁.Perm l₂) (g : ℚ) :
    rkC l₁ g = rkC l₂ g := by
  rw [rkC, rkC, distinctGT, distinctGT,
    List.toFinset_eq_of_perm _ _ (h.map (fun s => s.grade))]

/-- The percentile walk emits exactly the closed-form percentile of each
student of the grade-ascending order. -/
lemma percentilesAsc_eq (students : List Student) :
    percentilesAsc students
      = (sortedAscStudents students).map (fun s => pctC students s.grade) := by
  rw [percentilesAsc]
  have h := pctWalk_char_aux (max_student_grade students) students.length
    (sortedAscStudents students) (sortedAscStudents_sorted students)
    (sortedAscStudents students) [] none none rfl (fun _ => rfl)
    (fun hq => absurd rfl hq)
  rw [List.length_nil] at h
  rw [h]
  exact List.map_congr_left
    (fun s _ => pctF_congr_list (sortedAscStudents_perm students) _)

/-- The rank walk emits exactly the closed-form rank of each student of the
grade-descending order. -/
lemma ranksDesc_eq (students : List Student) :
    ranksDesc students
      = (sortedDescStudents students).map (fun s => rkC students s.grade) := by
  rw [ranksDesc]
  have h := rankWalk_char_aux (sortedDescStudents students)
    (sortedDescStudents_sorted students) (sortedDescStudents students)
    [] 0 none none rfl (by simp) (fun _ => rfl) (fun hq => absurd rfl hq)
  rw [h]
  exact List.map_congr_left
    (fun s _ => rkC_congr_list (sortedDescStudents_perm students) _)

/-- Writing the value `f` of each sorted student back to its original index
through the association list is the same as mapping `f` over the store in
place. -/
lemma enum_lookup_attach {β : Type _} (students : List Student)
    (pairs : List (ℕ × Student)) (hp : pairs.Perm students.enum)
    (f : Student → β) (upd : Student → β → Student) :
    (students.enum.map (writeBack upd
        ((pairs.map (fun q => q.1)).zip ((pairs.map (fun q => q.2)).map f))))
      = students.map (fun s => upd s (f s)) := by
  have hassoc : (pairs.map (fun q => q.1)).zip ((pairs.map (fun q => q.2)).map f)
      = pairs.map (fun q => (q.1, f q.2)) := by
    rw [List.map_map, List.zip_map']
    rfl
  have hnd : ((pairs.map (fun q => (q.1, f q.2))).map (fun p => p.1)).Nodup := by
    rw [List.map_map]
    have h1 : (pairs.map (fun q => q.1)).Perm (students.enum.map (fun q => q.1)) :=
      hp.map _
    have h2 : students.enum.map (fun q : ℕ × Student => q.1)
        = List.range students.length := by
      rw [show (fun q : ℕ × Student => q.1) = Prod.fst from rfl]
      exact List.enum_map_fst students
    have h3 : (students.enum.map (fun q : ℕ × Student => q.1)).Nodup := by
      rw [h2]; exact List.nodup_range _
    exact (h1.symm.nodup h3 : _)
  rw [hassoc]
  apply List.ext_getElem
  · simp [List.enum_length]
  · intro i h1 h2
    rw [List.getElem_map, List.getElem_map]
    have hlen : i < students.enum.length := by
      simpa [List.enum_length] using h2
    have hilen : i < students.length := by
      simpa [List.enum_length] using hlen
    have henum : students.enum[i] = (i, students[i]) := List.getElem_enum _ _ _
    rw [henum]
    have hmem : (i, students[i]) ∈ pairs := by
      rw [hp.mem_iff, ← henum]
      exact List.getElem_mem _
    have hlk : (pairs.map (fun q => (q.1, f q.2))).lookup i
        = some (f students[i]) := by
      apply lookup_eq_some_of_mem hnd
      exact List.mem_map_of_mem _ hmem
    simp only [writeBack, hlk]

/-- `attach_percentile` updates every student in place with the closed-form
percentile of its grade. -/
lemma attach_percentile_eq (students : List Student) :
    attach_percentile students
      = students.map (fun s => { s with percentile := some (pctC students s.grade) }) := by
  simp only [attach_percentile]
  rw [percentilesAsc_eq, sortedAscStudents]
  exact enum_lookup_attach students (sortPairsAsc students) (sortPairsAsc_perm students)
    (fun s => pctC students s.grade) (fun s v => { s with percentile := some v })

/-- `attach_rank` updates every student in place with the closed-form rank
of its grade. -/
lemma attach_rank_eq (students : List Student) :
    attach_rank students
      = students.map (fun s => { s with rank := some (rkC students s.grade) }) := by
  simp only [attach_rank]
  rw [ranksDesc_eq, sortedDescStudents]
  exact enum_lookup_attach students (sortPairsDesc students) (sortPairsDesc_perm students)
    (fun s => rkC students s.grade) (fun s v => { s with rank := some v })

/-- The closed-form percentile only depends on the grades, so grade-preserving
rewrites of the store do not change it. -/
lemma pctC_map_congr (students : List Student) (f : Student → Student)
    (hf : ∀ s, (f s).grade = s.grade) (g : ℚ) :
    pctC (students.map f) g = pctC students g := by
  have hgr : (students.map f).map (fun s => s.grade)
      = students.map (fun s => s.grade) := by
    rw [List.map_map]
    exact List.map_congr_left (fun a _ => hf a)
  have hmax : max_student_grade (students.map f) = max_student_grade students := by
    unfold max_student_grade
    rw [hgr]
  have hcnt : countLT (students.map f) g = countLT students g := by
    rw [countLT, countLT, List.countP_map]
    congr 1
    funext t
    simp [hf t]
  rw [pctC, pctC, pctF, pctF, hmax, hcnt, List.length_map]

/-- Running the engine (ranks then percentiles) rewrites every student in
place with the closed forms of its grade. -/
lemma annotate_eq (students : List Student) :
    annotate students = students.map (fun s =>
      { s with rank := some (rkC students s.grade),
               percentile := some (pctC students s.grade) }) := by
  rw [annotate, attach_rank_eq, attach_percentile_eq, List.map_map]
  apply List.map_congr_left
  intro s _
  have hp : pctC (students.map (fun s => { s with rank := some (rkC students s.grade) }))
      s.grade = pctC students s.grade :=
    pctC_map_congr students
      (fun s => { s with rank := some (rkC students s.grade) }) (fun _ => rfl) s.grade
  simp only [Function.comp_apply]
  rw [hp]

end AttachClosedForms

section ClaimSupport

/-- `getD` through a `map`, at an in-range index. -/
lemma getD_map_of_lt {β : Type _} [Inhabited β] (l : List Student)
    (f : Student → β) (i : ℕ) (hi : i < l.length) :
    (l.map f).getD i default = f (l.getD i default) := by
  rw [List.getD_eq_getElem _ _ (by simpa using hi), List.getD_eq_getElem _ _ hi,
    List.getElem_map]

/-- Every student of the annotated store carries the closed-form rank and
percentile of its grade. -/
lemma mem_annotate (students : List Student) (s : Student)
    (hs : s ∈ annotate students) :
    ∃ t ∈ students, s = { t with rank := some (rkC students t.grade),
                                 percentile := some (pctC students t.grade) } := by
  rw [annotate_eq] at hs
  obtain ⟨t, ht, hteq⟩ := List.mem_map.mp hs
  exact ⟨t, ht, hteq.symm⟩

end ClaimSupport

/-- Claim C4: for every non-empty entry set, every entry whose grade equals
the maximum grade present in the store (including all entries tied at that
maximum) receives percentile exactly 100.0 from the percentile engine. -/
theorem c4_max_grade_percentile_100 (students : List Student) (s : Student)
    (hs : s ∈ attach_percentile students)
    (hmax : s.grade = max_student_grade students) :
    s.percentile = some 100 := by
  rw [attach_percentile_eq] at hs
  obtain ⟨t, _, hteq⟩ := List.mem_map.mp hs
  subst hteq
  show some (pctC students t.grade) = some 100
  rw [pctC, pctF, if_pos hmax]

/-- Claim C4 witness: in the store with grades 5, 5, 10, both entries holding
the maximum grade 10 receive percentile 100. -/
theorem c4_max_grade_percentile_100_witness :
    (((attach_percentile [⟨"A", 5, none, none⟩, ⟨"C", 10, none, none⟩,
        ⟨"D", 10, none, none⟩]).getD 1 default)).percentile = some 100 := by
  have hlen : 1 < (attach_percentile [⟨"A", 5, none, none⟩, ⟨"C", 10, none, none⟩,
      ⟨"D", 10, none, none⟩]).length := by decide
  have hmem : ((attach_percentile [⟨"A", 5, none, none⟩, ⟨"C", 10, none, none⟩,
        ⟨"D", 10, none, none⟩]).getD 1 default)
      ∈ attach_percentile [⟨"A", 5, none, none⟩, ⟨"C", 10, none, none⟩,
        ⟨"D", 10, none, none⟩] := by
    rw [List.getD_eq_getElem _ _ hlen]
    exact List.getElem_mem _
  exact c4_max_grade_percentile_100 _ _ hmem (by decide)

/-- Claim C10: `attach_rank` and `attach_percentile` mutate only the rank and
percentile fields: the length of the student sequence, the order of its
elements, and every name and grade are the same after each operation as
before it (and each operation also leaves the other annotation field
untouched). -/
theorem c10_attach_frame (students : List Student) (i : ℕ)
    (hi : i < students.length) :
    (attach_rank students).length = students.length ∧
    (attach_percentile students).length = students.length ∧
    ((attach_rank students).getD i default).name = (students.getD i default).name ∧
    ((attach_rank students).getD i default).grade = (students.getD i default).grade ∧
    ((attach_rank students).getD i default).percentile
      = (students.getD i default).percentile ∧
    ((attach_percentile students).getD i default).name
      = (students.getD i default).name ∧
    ((attach_percentile students).getD i default).grade
      = (students.getD i default).grade ∧
    ((attach_percentile students).getD i default).rank
      = (students.getD i default).rank := by
  rw [attach_rank_eq, attach_percentile_eq, getD_map_of_lt students _ i hi,
    getD_map_of_lt students _ i hi]
  refine ⟨by simp, by simp, rfl, rfl, rfl, rfl, rfl, rfl⟩

/-- Claim C10 witness: on a concrete three-entry store, position 1 keeps its
name, grade and the untouched annotation field through both operations. -/
theorem c10_attach_frame_witness :
    ((attach_rank [⟨"A", 5, none, none⟩, ⟨"B", 7, none, none⟩,
        ⟨"C", 3, none, none⟩]).getD 1 default).name = "B" ∧
    ((attach_percentile [⟨"A", 5, none, none⟩, ⟨"B", 7, none, none⟩,
        ⟨"C", 3, none, none⟩]).getD 1 default).grade = 7 := by
  have h := c10_attach_frame
    [⟨"A", 5, none, none⟩, ⟨"B", 7, none, none⟩, ⟨"C", 3, none, none⟩] 1 (by decide)
  exact ⟨h.2.2.1.trans (by decide), h.2.2.2.2.2.2.1.trans (by decide)⟩

/-- Claim C9: the aggregate statistics calculator computes `passed` as the
count of entries whose grade is at least `max_grade / 2`, and `failed` as
`total - passed`. -/
theorem c9_passed_failed (students : List Student) (max_grade : ℚ) :
    (ExamStatisticsR.new students max_grade).passed_students
      = students.countP (fun s => decide (max_grade / 2 ≤ s.grade)) ∧
    (ExamStatisticsR.new students max_grade).failed_students
      = (ExamStatisticsR.new students max_grade).total_students
        - (ExamStatisticsR.new students max_grade).passed_students := by
  constructor
  · show passed_students (annotate students) max_grade = _
    rw [passed_students, annotate_eq, List.countP_map]
    rfl
  · rfl

/-- Claim C5: on the empty entry set the calculator returns 0 for mean,
median and standard deviation, but `pass_rate` is computed as the `f32`
division `0 / 0` times 100, a NaN (modelled as `none`), not 0. -/
theorem c5_empty_statistics :
    (ExamStatisticsR.new [] 10).mean = 0 ∧
    (ExamStatisticsR.new [] 10).median = 0 ∧
    (ExamStatisticsR.new [] 10).std_dev = 0 ∧
    (ExamStatisticsR.new [] 10).pass_rate = none ∧
    (ExamStatisticsR.new [] 10).pass_rate ≠ some 0 := by
  have hann : attach_percentile (attach_rank ([] : List Student)) = [] := by
    rw [attach_rank_eq, attach_percentile_eq]
    rfl
  simp only [ExamStatisticsR.new, hann]
  refine ⟨by simp [mean], by simp [median], by simp [std_deviation], ?_, ?_⟩
  · simp [passed_students, f32div]
  · simp [passed_students, f32div]

/-- The entry set of the C6 scenario. -/
def c6Students : List Student :=
  [⟨"A", 5, none, none⟩, ⟨"B", 5, none, none⟩, ⟨"C", 10, none, none⟩]

lemma c6_rkC_5 : rkC c6Students 5 = 2 := by decide

lemma c6_rkC_10 : rkC c6Students 10 = 1 := by decide

lemma c6_pctC_5 : pctC c6Students 5 = 0 := by
  rw [pctC, pctF, if_neg (by decide)]
  rw [show countLT c6Students 5 = 0 from by decide]
  norm_num

lemma c6_pctC_10 : pctC c6Students 10 = 100 := by
  rw [pctC, pctF, if_pos (by decide)]

/-- Claim C6 counterexample: in the store A: 5, B: 5, C: 10 neither A nor B
receives percentile 50 from the engine (both receive 0: the tie group reuses
the percentile computed at its first ascending index, which is
`0 / (3 - 1) * 100 = 0`). -/
theorem c6_scenario_counterexample :
    ((annotate c6Students).getD 0 default).percentile ≠ some 50 ∧
    ((annotate c6Students).getD 1 default).percentile ≠ some 50 := by
  rw [annotate_eq]
  show some (pctC c6Students 5) ≠ some 50 ∧ some (pctC c6Students 5) ≠ some 50
  rw [c6_pctC_5]
  refine ⟨by norm_num, by norm_num⟩

/-- Claim C6 amended: in the store A: 5, B: 5, C: 10, A and B share rank 2
and percentile 0.0, and C has rank 1 and percentile 100.0. -/
theorem c6_scenario_amended :
    annotate c6Students
      = [⟨"A", 5, some 2, some 0⟩, ⟨"B", 5, some 2, some 0⟩,
         ⟨"C", 10, some 1, some 100⟩] := by
  rw [annotate_eq]
  show [(⟨"A", 5, some (rkC c6Students 5), some (pctC c6Students 5)⟩ : Student),
        ⟨"B", 5, some (rkC c6Students 5), some (pctC c6Students 5)⟩,
        ⟨"C", 10, some (rkC c6Students 10), some (pctC c6Students 10)⟩] = _
  rw [c6_rkC_5, c6_rkC_10, c6_pctC_5, c6_pctC_10]

lemma countLT_le_sub_one (students : List Student) {a : Student}
    (ha : a ∈ students) {g : ℚ} (hg : ¬ a.grade < g) :
    countLT students g ≤ students.length - 1 := by
  have hlt : countLT students g < students.length := by
    rcases lt_or_eq_of_le (List.countP_le_length (fun t => decide (t.grade < g))
        (l := students)) with h | h
    · exact h
    · exfalso
      have := List.countP_eq_length.mp h a ha
      simp only [decide_eq_true_eq] at this
      exact hg this
  omega

lemma pctC_le_100 (students : List Student) {g : ℚ}
    (hc : countLT students g ≤ students.length - 1) :
    pctC students g ≤ 100 := by
  rw [pctC, pctF]
  by_cases hm : g = max_student_grade students
  · rw [if_pos hm]
  · rw [if_neg hm]
    rcases Nat.eq_zero_or_pos (students.length - 1) with h0 | hpos
    · rw [h0]
      norm_num
    · have hd : (0 : ℚ) < ((students.length - 1 : ℕ) : ℚ) := by exact_mod_cast hpos
      have hcd : ((countLT students g : ℕ) : ℚ) ≤ ((students.length - 1 : ℕ) : ℚ) := by
        exact_mod_cast hc
      have h1 : ((countLT students g : ℕ) : ℚ) / ((students.length - 1 : ℕ) : ℚ) ≤ 1 :=
        (div_le_one hd).mpr hcd
      calc ((countLT students g : ℕ) : ℚ) / ((students.length - 1 : ℕ) : ℚ) * 100
          ≤ 1 * 100 := by
            exact mul_le_mul_of_nonneg_right h1 (by norm_num)
        _ = 100 := one_mul 100

/-- Claim C2: after the engine runs, two entries with exactly equal grades
have equal rank and equal percentile (names never factor in), and for two
entries with distinct grades the strictly higher one has a rank number at
most the other's and a percentile at least the other's. -/
theorem c2_grade_determines_rank_percentile (students : List Student)
    (s t : Student) (hs : s ∈ annotate students) (ht : t ∈ annotate students) :
    (s.grade = t.grade → s.rank = t.rank ∧ s.percentile = t.percentile) ∧
    (t.grade < s.grade → s.rank.getD 0 ≤ t.rank.getD 0 ∧
      t.percentile.getD 0 ≤ s.percentile.getD 0) := by
  obtain ⟨a, ha, rfl⟩ := mem_annotate students s hs
  obtain ⟨b, hb, rfl⟩ := mem_annotate students t ht
  constructor
  · intro hg
    have hg' : a.grade = b.grade := hg
    constructor
    · show some (rkC students a.grade) = some (rkC students b.grade)
      rw [hg']
    · show some (pctC students a.grade) = some (pctC students b.grade)
      rw [hg']
  · intro hlt
    have hlt' : b.grade < a.grade := hlt
    constructor
    · show rkC students a.grade ≤ rkC students b.grade
      rw [rkC, rkC]
      have hsub : distinctGT students a.grade ⊆ distinctGT students b.grade := by
        intro x hx
        rw [distinctGT, Finset.mem_filter] at hx ⊢
        exact ⟨hx.1, lt_trans hlt' hx.2⟩
      exact Nat.add_le_add_right (Finset.card_le_card hsub) 1
    · show pctC students b.grade ≤ pctC students a.grade
      have hBneA : b.grade ≠ max_student_grade students := by
        intro h
        have hle := grade_le_max_student_grade ha
        rw [← h] at hle
        exact absurd hlt' (not_lt.mpr hle)
      by_cases hA : a.grade = max_student_grade students
      · calc pctC students b.grade ≤ 100 :=
              pctC_le_100 students (countLT_le_sub_one students ha (not_lt.mpr hlt'.le))
          _ = pctC students a.grade := by rw [pctC, pctF, if_pos hA]
      · rw [pctC, pctC, pctF, pctF, if_neg hBneA, if_neg hA]
        have hcc : countLT students b.grade ≤ countLT students a.grade :=
          List.countP_mono_left (fun x _ hx => by
            simp only [decide_eq_true_eq] at hx ⊢
            exact lt_trans hx hlt')
        rcases Nat.eq_zero_or_pos (students.length - 1) with h0 | hpos
        · rw [h0]
          norm_num
        · have hd : (0 : ℚ) < ((students.length - 1 : ℕ) : ℚ) := by exact_mod_cast hpos
          have hcast : ((countLT students b.grade : ℕ) : ℚ)
              ≤ ((countLT students a.grade : ℕ) : ℚ) := by exact_mod_cast hcc
          exact mul_le_mul_of_nonneg_right
            ((div_le_div_iff_of_pos_right hd).mpr hcast) (by norm_num)

/-- The entry set used by the C2 witness. -/
def c2W : List Student :=
  [⟨"x", 5, none, none⟩, ⟨"y", 5, none, none⟩, ⟨"z", 7, none, none⟩]

/-- Claim C2 witness: in the store x: 5, y: 5, z: 7 the tied entries x and y
share rank and percentile, and z (strictly higher grade) has a rank at most
x's and a percentile at least x's. -/
theorem c2_grade_determines_rank_percentile_witness :
    (((annotate c2W).getD 0 default).rank = ((annotate c2W).getD 1 default).rank ∧
     ((annotate c2W).getD 0 default).percentile
       = ((annotate c2W).getD 1 default).percentile) ∧
    (((annotate c2W).getD 2 default).rank.getD 0
       ≤ ((annotate c2W).getD 0 default).rank.getD 0 ∧
     ((annotate c2W).getD 0 default).percentile.getD 0
       ≤ ((annotate c2W).getD 2 default).percentile.getD 0) := by
  have hlen : (annotate c2W).length = 3 := by
    rw [annotate_eq]
    rfl
  have hmem : ∀ i, i < 3 → (annotate c2W).getD i default ∈ annotate c2W := by
    intro i hi
    rw [List.getD_eq_getElem _ _ (by rw [hlen]; exact hi)]
    exact List.getElem_mem _
  have h01 := c2_grade_determines_rank_percentile c2W _ _
    (hmem 0 (by decide)) (hmem 1 (by decide))
  have h20 := c2_grade_determines_rank_percentile c2W _ _
    (hmem 2 (by decide)) (hmem 0 (by decide))
  exact ⟨h01.1 (by decide), h20.2 (by decide)⟩

/-- In a grade-ascending list, at an index that starts a tie group the
number of strictly smaller grades is the index itself. -/
lemma countLT_sorted_at_boundary (l : List Student)
    (hs : List.Pairwise (fun a b : Student => a.grade ≤ b.grade) l)
    (i : ℕ) (hi : i < l.length)
    (hb : i = 0 ∨ (l.getD i default).grade ≠ (l.getD (i - 1) default).grade) :
    countLT l ((l.getD i default).grade) = i := by
  have hpg := List.pairwise_iff_getElem.mp hs
  rw [List.getD_eq_getElem _ _ hi]
  have hsplit : List.countP (fun t => decide (t.grade < l[i].grade)) l
      = List.countP (fun t => decide (t.grade < l[i].grade)) (l.take i)
        + List.countP (fun t => decide (t.grade < l[i].grade)) (l.drop i) := by
    rw [← List.countP_append, List.take_append_drop]
  have hdrop : List.countP (fun t => decide (t.grade < l[i].grade)) (l.drop i) = 0 := by
    rw [List.countP_eq_zero]
    intro a ha
    obtain ⟨j, hj, hja⟩ := List.mem_iff_getElem.mp ha
    have hij : i + j < l.length := by
      rw [List.length_drop] at hj
      omega
    have hja' : a = l[i + j] := by
      rw [← hja]
      exact List.getElem_drop l
    simp only [decide_eq_true_eq, not_lt]
    rw [hja']
    rcases Nat.eq_zero_or_pos j with h0 | hposj
    · subst h0
      exact le_of_eq rfl
    · exact hpg i (i + j) hi hij (by omega)
  have htake : List.countP (fun t => decide (t.grade < l[i].grade)) (l.take i) = i := by
    rcases hb with h0 | hne
    · subst h0
      rfl
    · have hipos : 0 < i := by
        rcases Nat.eq_zero_or_pos i with h | h
        · subst h
          simp at hne
        · exact h
      have hlt : (l.getD (i - 1) default).grade < l[i].grade := by
        have h1 : (l.getD (i - 1) default).grade ≤ l[i].grade := by
          rw [List.getD_eq_getElem _ _ (by omega)]
          exact hpg (i - 1) i (by omega) hi (by omega)
        rcases lt_or_eq_of_le h1 with h | h
        · exact h
        · exact absurd (by rw [List.getD_eq_getElem _ _ hi]; exact h.symm) hne
      have hlen : (l.take i).length = i := by
        rw [List.length_take]
        omega
      refine (List.countP_eq_length.mpr ?_).trans hlen
      intro a ha
      obtain ⟨j, hj, hja⟩ := List.mem_iff_getElem.mp ha
      have hjlt : j < i := by
        rw [hlen] at hj
        exact hj
      have hjl : j < l.length := by omega
      have hja' : a = l[j] := by
        rw [← hja]
        exact List.getElem_take l
      simp only [decide_eq_true_eq]
      rw [hja']
      have hle : l[j].grade ≤ (l.getD (i - 1) default).grade := by
        rw [List.getD_eq_getElem _ _ (by omega)]
        rcases Nat.lt_or_ge j (i - 1) with h | h
        · exact hpg j (i - 1) (by omega) (by omega) h
        · have hji : j = i - 1 := by omega
          subst hji
          exact le_refl _
      exact lt_of_le_of_lt hle hlt
  rw [countLT, hsplit, htake, hdrop]
  omega

/-- Claim C1: walking the ascending order, a tie with the immediately
preceding entry reuses that entry's percentile (the whole tie group shares
the value computed at its first index); otherwise an entry at 0-based
ascending position `i` with grade below the maximum receives
`i / (n - 1) * 100`; and a sole entry receives 100. -/
theorem c1_percentile_walk (students : List Student) :
    (∀ i, i + 1 < students.length →
      ((sortedAscStudents students).getD (i + 1) default).grade
        = ((sortedAscStudents students).getD i default).grade →
      (percentilesAsc students).getD (i + 1) 0 = (percentilesAsc students).getD i 0) ∧
    (∀ i j, i < students.length → j < students.length →
      ((sortedAscStudents students).getD i default).grade
        = ((sortedAscStudents students).getD j default).grade →
      (percentilesAsc students).getD i 0 = (percentilesAsc students).getD j 0) ∧
    (∀ i, i < students.length →
      (i = 0 ∨ ((sortedAscStudents students).getD i default).grade
        ≠ ((sortedAscStudents students).getD (i - 1) default).grade) →
      ((sortedAscStudents students).getD i default).grade
        < max_student_grade students →
      (percentilesAsc students).getD i 0
        = (i : ℚ) / ((students.length - 1 : ℕ) : ℚ) * 100) ∧
    (students.length = 1 → percentilesAsc students = [100]) := by
  have hlenS : (sortedAscStudents students).length = students.length := by
    rw [sortedAscStudents, List.length_map, sortPairsAsc,
      List.length_insertionSort, List.enum_length]
  have hget : ∀ k, k < students.length →
      (percentilesAsc students).getD k 0
        = pctC students ((sortedAscStudents students).getD k default).grade := by
    intro k hk
    rw [percentilesAsc_eq,
      List.getD_eq_getElem _ _ (by rw [List.length_map, hlenS]; exact hk),
      List.getElem_map, List.getD_eq_getElem _ _ (by rw [hlenS]; exact hk)]
  refine ⟨?_, ?_, ?_, ?_⟩
  · intro i hi htie
    rw [hget (i + 1) hi, hget i (by omega), htie]
  · intro i j hi hj htie
    rw [hget i hi, hget j hj, htie]
  · intro i hi hb hlt
    rw [hget i hi, pctC, pctF, if_neg (ne_of_lt hlt)]
    have hcnt : countLT students ((sortedAscStudents students).getD i default).grade
        = i := by
      rw [countLT_perm (sortedAscStudents_perm students).symm]
      exact countLT_sorted_at_boundary (sortedAscStudents students)
        (sortedAscStudents_sorted students) i (by rw [hlenS]; exact hi) hb
    rw [hcnt]
  · intro h1
    obtain ⟨s, rfl⟩ := List.length_eq_one.mp h1
    show pctWalk 1 (max_student_grade [s]) 0 none none (sortedAscStudents [s]) = [100]
    have hsort : sortedAscStudents [s] = [s] := rfl
    have hmax : max_student_grade [s] = s.grade := rfl
    rw [hsort, hmax]
    simp [pctWalk, pctVal]

/-- The entry set used by the C1 witness. -/
def c1W : List Student :=
  [⟨"x", 1, none, none⟩, ⟨"y", 1, none, none⟩, ⟨"z", 3, none, none⟩,
   ⟨"w", 5, none, none⟩]

/-- The one-entry store used by the C1 witness's sole-entry clause. -/
def c1W1 : List Student := [⟨"solo", 7, none, none⟩]

/-- Claim C1 witness: in the ascending order 1, 1, 3, 5 the tied second
entry reuses the first entry's percentile, the entry at position 2 (grade 3,
below the maximum 5) receives `2 / (4 - 1) * 100`, and a sole entry receives
100. -/
theorem c1_percentile_walk_witness :
    ((percentilesAsc c1W).getD 1 0 = (percentilesAsc c1W).getD 0 0) ∧
    ((percentilesAsc c1W).getD 2 0
      = ((2 : ℕ) : ℚ) / ((c1W.length - 1 : ℕ) : ℚ) * 100) ∧
    percentilesAsc c1W1 = [100] :=
  ⟨(c1_percentile_walk c1W).1 0 (by decide) (by decide),
   (c1_percentile_walk c1W).2.2.1 2 (by decide) (by decide) (by decide),
   (c1_percentile_walk c1W1).2.2.2 (by decide)⟩

lemma sortedDescStudents_length (students : List Student) :
    (sortedDescStudents students).length = students.length := by
  rw [sortedDescStudents, List.length_map, sortPairsDesc,
    List.length_insertionSort, List.enum_length]

lemma grade_mem_of_mem_sortedDesc {students : List Student} {k : ℕ}
    (hk : k < (sortedDescStudents students).length) :
    ((sortedDescStudents students)[k]) ∈ students :=
  (sortedDescStudents_perm students).mem_iff.mp (List.getElem_mem hk)

/-- In the grade-descending order, every grade present in the store is at
most the grade at any earlier position, specialised to what C3 needs. -/
lemma distinctGT_empty_of_head (students : List Student)
    (h0 : 0 < (sortedDescStudents students).length) :
    distinctGT students (((sortedDescStudents students)[0]).grade) = ∅ := by
  have hpg := List.pairwise_iff_getElem.mp (sortedDescStudents_sorted students)
  rw [distinctGT, Finset.filter_eq_empty_iff]
  intro x hx
  rw [List.mem_toFinset] at hx
  obtain ⟨t, ht, hteq⟩ := List.mem_map.mp hx
  have htm : t ∈ sortedDescStudents students :=
    (sortedDescStudents_perm students).symm.mem_iff.mp ht
  obtain ⟨p, hp, hpeq⟩ := List.mem_iff_getElem.mp htm
  rw [← hteq, ← hpeq]
  simp only [not_lt]
  rcases Nat.eq_zero_or_pos p with hz | hz
  · subst hz
    exact le_refl _
  · exact hpg 0 p h0 hp hz

/-- Claim C3: read in grade-descending order, the ranks assigned by
`attach_rank` form a sequence of positive integers that starts at 1, stays
the same inside a tie group, increases by exactly 1 at each distinct-grade
boundary, and is monotonically non-decreasing. -/
theorem c3_rank_sequence (students : List Student) (hne : students ≠ []) :
    ranksDesc students
      = (sortedDescStudents students).map (fun s => rkC students s.grade) ∧
    (∀ s ∈ attach_rank students, s.rank = some (rkC students s.grade)) ∧
    (ranksDesc students).getD 0 0 = 1 ∧
    (∀ k, k + 1 < (ranksDesc students).length →
      (((sortedDescStudents students).getD (k + 1) default).grade
          = ((sortedDescStudents students).getD k default).grade →
        (ranksDesc students).getD (k + 1) 0 = (ranksDesc students).getD k 0) ∧
      (((sortedDescStudents students).getD (k + 1) default).grade
          ≠ ((sortedDescStudents students).getD k default).grade →
        (ranksDesc students).getD (k + 1) 0 = (ranksDesc students).getD k 0 + 1) ∧
      (ranksDesc students).getD k 0 ≤ (ranksDesc students).getD (k + 1) 0) ∧
    (∀ r ∈ ranksDesc students, 0 < r) := by
  have hpg := List.pairwise_iff_getElem.mp (sortedDescStudents_sorted students)
  have hlenm : (sortedDescStudents students).length = students.length :=
    sortedDescStudents_length students
  have hlenr : (ranksDesc students).length = (sortedDescStudents students).length := by
    rw [ranksDesc_eq, List.length_map]
  have hget : ∀ k, k < (sortedDescStudents students).length →
      (ranksDesc students).getD k 0
        = rkC students (((sortedDescStudents students).getD k default)).grade := by
    intro k hk
    rw [ranksDesc_eq, List.getD_eq_getElem _ _ (by rw [List.length_map]; exact hk),
      List.getElem_map, List.getD_eq_getElem _ _ hk]
  have hmpos : 0 < (sortedDescStudents students).length := by
    rw [hlenm]
    exact List.length_pos.mpr hne
  refine ⟨ranksDesc_eq students, ?_, ?_, ?_, ?_⟩
  · intro s hs
    rw [attach_rank_eq] at hs
    obtain ⟨t, _, hteq⟩ := List.mem_map.mp hs
    subst hteq
    rfl
  · rw [hget 0 hmpos, rkC, List.getD_eq_getElem _ _ hmpos,
      distinctGT_empty_of_head students hmpos, Finset.card_empty]
  · intro k hk
    have hk1 : k + 1 < (sortedDescStudents students).length := by
      rw [← hlenr]
      exact hk
    have hk0 : k < (sortedDescStudents students).length := by omega
    have hdesc : ((sortedDescStudents students).getD (k + 1) default).grade
        ≤ ((sortedDescStudents students).getD k default).grade := by
      rw [List.getD_eq_getElem _ _ hk1, List.getD_eq_getElem _ _ hk0]
      exact hpg k (k + 1) hk0 hk1 (by omega)
    have htie : ((sortedDescStudents students).getD (k + 1) default).grade
          = ((sortedDescStudents students).getD k default).grade →
        (ranksDesc students).getD (k + 1) 0 = (ranksDesc students).getD k 0 := by
      intro h
      rw [hget (k + 1) hk1, hget k hk0, h]
    have hnew : ((sortedDescStudents students).getD (k + 1) default).grade
          ≠ ((sortedDescStudents students).getD k default).grade →
        (ranksDesc students).getD (k + 1) 0 = (ranksDesc students).getD k 0 + 1 := by
      intro h
      have hlt : ((sortedDescStudents students).getD (k + 1) default).grade
          < ((sortedDescStudents students).getD k default).grade :=
        lt_of_le_of_ne hdesc h
      rw [hget (k + 1) hk1, hget k hk0]
      have hins : distinctGT students
            (((sortedDescStudents students).getD (k + 1) default).grade)
          = insert (((sortedDescStudents students).getD k default).grade)
              (distinctGT students
                (((sortedDescStudents students).getD k default).grade)) := by
        rw [distinctGT, distinctGT]
        ext x
        simp only [Finset.mem_filter, Finset.mem_insert, List.mem_toFinset]
        constructor
        · rintro ⟨hxS, hx⟩
          obtain ⟨t, ht, hteq⟩ := List.mem_map.mp hxS
          have htm : t ∈ sortedDescStudents students :=
            (sortedDescStudents_perm students).symm.mem_iff.mp ht
          obtain ⟨p, hp, hpeq⟩ := List.mem_iff_getElem.mp htm
          have hxp : x = ((sortedDescStudents students)[p]).grade := by
            rw [hpeq, hteq]
          rcases Nat.lt_trichotomy p (k + 1) with hpk | hpk | hpk
          · have hge : ((sortedDescStudents students).getD k default).grade ≤ x := by
              rw [List.getD_eq_getElem _ _ hk0, hxp]
              rcases Nat.lt_or_ge p k with h2 | h2
              · exact hpg p k hp hk0 h2
              · have hpk' : p = k := by omega
                subst hpk'
                exact le_refl _
            rcases lt_or_eq_of_le hge with h2 | h2
            · exact Or.inr ⟨hxS, h2⟩
            · exact Or.inl h2.symm
          · exfalso
            rw [hxp] at hx
            have : ((sortedDescStudents students)[p]).grade
                = ((sortedDescStudents students).getD (k + 1) default).grade := by
              rw [List.getD_eq_getElem _ _ hk1]
              subst hpk
              rfl
            rw [this] at hx
            exact lt_irrefl _ hx
          · exfalso
            rw [hxp] at hx
            have hle : ((sortedDescStudents students)[p]).grade
                ≤ ((sortedDescStudents students).getD (k + 1) default).grade := by
              rw [List.getD_eq_getElem _ _ hk1]
              exact hpg (k + 1) p hk1 hp hpk
            exact absurd (lt_of_lt_of_le hx hle) (lt_irrefl _)
        · rintro (hxk | ⟨hxS, hx⟩)
          · subst hxk
            constructor
            · rw [List.getD_eq_getElem _ _ hk0]
              exact List.mem_map_of_mem _ (grade_mem_of_mem_sortedDesc hk0)
            · exact hlt
          · exact ⟨hxS, lt_trans hlt hx⟩
      rw [rkC, rkC, hins, Finset.card_insert_of_not_mem (by
        rw [distinctGT, Finset.mem_filter]
        rintro ⟨-, hcon⟩
        exact lt_irrefl _ hcon)]
    refine ⟨htie, hnew, ?_⟩
    by_cases h : ((sortedDescStudents students).getD (k + 1) default).grade
        = ((sortedDescStudents students).getD k default).grade
    · rw [htie h]
    · rw [hnew h]
      omega
  · intro r hr
    rw [ranksDesc_eq] at hr
    obtain ⟨t, _, hteq⟩ := List.mem_map.mp hr
    rw [← hteq, rkC]
    omega

/-- The entry set used by the C3 witness. -/
def c3W : List Student :=
  [⟨"a", 7, none, none⟩, ⟨"b", 5, none, none⟩, ⟨"c", 5, none, none⟩]

/-- Claim C3 witness: for grades 7, 5, 5 the descending rank sequence starts
at 1, increases by exactly 1 at the 7-to-5 boundary, and stays the same
inside the 5-5 tie group. -/
theorem c3_rank_sequence_witness :
    (ranksDesc c3W).getD 0 0 = 1 ∧
    (ranksDesc c3W).getD 1 0 = (ranksDesc c3W).getD 0 0 + 1 ∧
    (ranksDesc c3W).getD 2 0 = (ranksDesc c3W).getD 1 0 := by
  have h := c3_rank_sequence c3W (by decide)
  exact ⟨h.2.2.1, (h.2.2.2.1 0 (by decide)).2.1 (by decide),
    (h.2.2.2.1 1 (by decide)).1 (by decide)⟩

lemma lexLe_total : ∀ (l₁ l₂ : List Char), (lexLe l₁ l₂ || lexLe l₂ l₁) = true
  | [], l₂ => by simp [lexLe]
  | a :: as, [] => by simp [lexLe]
  | a :: as, b :: bs => by
    by_cases h1 : a < b
    · simp [lexLe, h1]
    · by_cases h2 : b < a
      · simp [lexLe, h1, h2]
      · simp only [lexLe, if_neg h1, if_neg h2]
        exact lexLe_total as bs

lemma lexLe_trans : ∀ (l₁ l₂ l₃ : List Char),
    lexLe l₁ l₂ = true → lexLe l₂ l₃ = true → lexLe l₁ l₃ = true
  | [], _, _, _, _ => rfl
  | a :: as, [], _, h, _ => by simp [lexLe] at h
  | a :: as, b :: bs, [], _, h => by simp [lexLe] at h
  | a :: as, b :: bs, c :: cs, h1, h2 => by
    by_cases hab : a < b
    · by_cases hbc : b < c
      · simp [lexLe, lt_trans hab hbc]
      · by_cases hcb : c < b
        · simp [lexLe, if_neg hbc, if_pos hcb] at h2
        · have hbceq : b = c := le_antisymm (not_lt.mp hcb) (not_lt.mp hbc)
          subst hbceq
          simp [lexLe, hab]
    · by_cases hba : b < a
      · simp [lexLe, if_neg hab, if_pos hba] at h1
      · have habeq : a = b := le_antisymm (not_lt.mp hba) (not_lt.mp hab)
        subst habeq
        simp only [lexLe, if_neg hab, if_neg hba] at h1
        by_cases hac : a < c
        · simp [lexLe, hac]
        · by_cases hca : c < a
          · simp [lexLe, if_neg hac, if_pos hca] at h2
          · simp only [lexLe, if_neg hac, if_neg hca] at h2 ⊢
            exact lexLe_trans as bs cs h1 h2

/-- Claim C7 amended: `sort_by_grade` leaves a permutation of the store that
is sorted by grade descending, and inside every equal-grade group the
entries appear in ascending order of their lowercased names (no accent
folding: the repository's name comparison is plain `to_lowercase`). -/
theorem c7_sort_by_grade_amended (students : List Student) :
    (sort_by_grade students).Perm students ∧
    List.Pairwise (fun a b : Student => b.grade ≤ a.grade) (sort_by_grade students) ∧
    ∀ g : ℚ, List.Pairwise
      (fun a b : Student => lexLe (lowerName a.name) (lowerName b.name) = true)
      ((sort_by_grade students).filter (fun s => decide (s.grade = g))) := by
  haveI htotg : IsTotal Student (fun a b : Student => b.grade ≤ a.grade) :=
    ⟨fun a b => le_total _ _⟩
  haveI htrang : IsTrans Student (fun a b : Student => b.grade ≤ a.grade) :=
    ⟨fun a b c h1 h2 => le_trans h2 h1⟩
  haveI htotn : IsTotal Student
      (fun a b : Student => lexLe (lowerName a.name) (lowerName b.name) = true) :=
    ⟨fun a b => by
      have := lexLe_total (lowerName a.name) (lowerName b.name)
      rcases Bool.or_eq_true_iff.mp this with h | h
      · exact Or.inl h
      · exact Or.inr h⟩
  haveI htrann : IsTrans Student
      (fun a b : Student => lexLe (lowerName a.name) (lowerName b.name) = true) :=
    ⟨fun a b c h1 h2 => lexLe_trans _ _ _ h1 h2⟩
  have hperm1 : (sort_by_alphabetic_order students).Perm students :=
    List.perm_insertionSort _ _
  have hperm : (sort_by_grade students).Perm students :=
    (List.perm_insertionSort _ _).trans hperm1
  have hsorted1 : List.Pairwise
      (fun a b : Student => lexLe (lowerName a.name) (lowerName b.name) = true)
      (sort_by_alphabetic_order students) :=
    List.sorted_insertionSort _ students
  refine ⟨hperm, List.sorted_insertionSort _ _, ?_⟩
  intro g
  set p : Student → Bool := fun s => decide (s.grade = g) with hp
  have hc : ((sort_by_alphabetic_order students).filter p).Pairwise
      (fun a b : Student => lexLe (lowerName a.name) (lowerName b.name) = true) :=
    hsorted1.filter p
  have hcg : ∀ a ∈ (sort_by_alphabetic_order students).filter p, a.grade = g := by
    intro a ha
    have := (List.mem_filter.mp ha).2
    rwa [hp, decide_eq_true_eq] at this
  have hcpair : ((sort_by_alphabetic_order students).filter p).Pairwise
      (fun a b : Student => b.grade ≤ a.grade) :=
    List.pairwise_of_forall_mem_list (fun a ha b hb => by
      rw [hcg a ha, hcg b hb])
  have hsub : ((sort_by_alphabetic_order students).filter p).Sublist
      (sort_by_grade students) :=
    List.sublist_insertionSort hcpair (List.filter_sublist _)
  have hfsub : ((sort_by_alphabetic_order students).filter p).Sublist
      ((sort_by_grade students).filter p) := by
    have h1 := List.Sublist.filter p hsub
    rwa [List.filter_filter, show (fun s => p s && p s) = p from by
      funext s; cases p s <;> rfl] at h1
  have hflen : ((sort_by_grade students).filter p).length
      = ((sort_by_alphabetic_order students).filter p).length :=
    ((List.perm_insertionSort _ _).filter p).length_eq
  have hfeq : (sort_by_alphabetic_order students).filter p
      = (sort_by_grade students).filter p :=
    hfsub.eq_of_length hflen.symm
  rw [← hfeq]
  exact hc

/-- The two students of the C7 counterexample: equal grades, names "á" and
"b". -/
def c7a : Student := ⟨"á", 1, none, none⟩

/-- See `c7a`. -/
def c7b : Student := ⟨"b", 1, none, none⟩

/-- Claim C7 counterexample: with equal grades and names "b", "á",
`sort_by_grade` keeps "b" before "á" (lowercase byte order, no accent
folding), while the accent-normalized ascending order claimed by the
specification would put "á" (which folds to "a") first, as
`specSortByGrade` does. -/
theorem c7_sort_by_grade_counterexample :
    sort_by_grade [c7b, c7a] = [c7b, c7a] ∧
    specSortByGrade [c7b, c7a] = [c7a, c7b] ∧
    lexLe (specFoldName c7a.name) (specFoldName c7b.name) = true ∧
    lexLe (specFoldName (((sort_by_grade [c7b, c7a]).getD 0 default).name))
      (specFoldName (((sort_by_grade [c7b, c7a]).getD 1 default).name)) = false := by
  refine ⟨by decide, by decide, by decide, by decide⟩

lemma list_eq_range_map_getD (bs : List ℕ) :
    bs = (List.range bs.length).map (fun i => bs.getD i 0) := by
  apply List.ext_getElem
  · simp
  · intro n h1 h2
    rw [List.getElem_map, List.getElem_range, List.getD_eq_getElem _ _ h1]

/-- The counting loop of the histogram, in closed form: when every grade's
bucket is in range, the loop succeeds and each bucket ends with its initial
value plus the number of grades that select it. -/
lemma fillBuckets_eq (step : ℚ) :
    ∀ (gs : List ℚ) (bs : List ℕ),
      (∀ g ∈ gs, bucketIdx step g < bs.length) →
      fillBuckets step gs bs
        = some ((List.range bs.length).map
            (fun i => bs.getD i 0 + gs.countP (fun g => decide (bucketIdx step g = i))))
  | [], bs, _ => by
    rw [fillBuckets]
    congr 1
    conv_lhs => rw [list_eq_range_map_getD bs]
    exact List.map_congr_left (fun i _ => by simp)
  | g :: gs, bs, hin => by
    have hg : bucketIdx step g < bs.length := hin g (List.mem_cons_self _ _)
    rw [fillBuckets, bumpBucket, if_pos hg]
    show fillBuckets step gs (bs.set (bucketIdx step g) (bs.getD (bucketIdx step g) 0 + 1))
      = _
    rw [fillBuckets_eq step gs _ (fun x hx => by
      rw [List.length_set]
      exact hin x (List.mem_cons_of_mem _ hx))]
    congr 1
    rw [List.length_set]
    apply List.map_congr_left
    intro i hi
    rw [List.mem_range] at hi
    rw [List.countP_cons]
    by_cases hidx : bucketIdx step g = i
    · subst hidx
      rw [List.getD_eq_getElem _ _ (by rw [List.length_set]; exact hi)]
      rw [List.getElem_set_self]
      rw [if_pos (show decide (bucketIdx step g = bucketIdx step g) = true from by simp)]
      omega
    · rw [List.getD_eq_getElem _ _ (by rw [List.length_set]; exact hi),
        List.getElem_set_ne hidx, ← List.getD_eq_getElem _ 0 hi]
      rw [if_neg (show ¬ decide (bucketIdx step g = i) = true from by simp [hidx])]
      omega

lemma c8_effMax (students : List Student) : histEffMax students 10 = 10 := by
  rw [histEffMax, if_neg]
  rintro ⟨h, -⟩
  norm_num at h

lemma c8_numBuckets : histNumBuckets 10 1 = 10 := by
  rw [histNumBuckets, div_one]
  rw [show ⌈(10 : ℚ)⌉ = 10 from by norm_num]
  rfl

lemma c8_clamped_bucket : bucketIdx 1 ((10 : ℚ) - 1 / 100) = 9 := by
  rw [bucketIdx, div_one]
  rw [show ⌊(10 : ℚ) - 1 / 100⌋ = 9 from by
    apply Int.floor_eq_iff.mpr
    constructor <;> norm_num]
  rfl

lemma c8_inRange (students : List Student) :
    ∀ g ∈ histGrades students 10, bucketIdx 1 g < 10 := by
  intro g hg
  obtain ⟨t, _, hteq⟩ := List.mem_map.mp hg
  rw [← hteq, histMapGrade]
  by_cases hgt : t.grade > 10
  · rw [if_pos hgt, c8_clamped_bucket]
    omega
  · rw [if_neg hgt]
    by_cases heq : t.grade = 10
    · rw [if_pos heq, heq, c8_clamped_bucket]
      omega
    · rw [if_neg heq, bucketIdx, div_one]
      have hlt : t.grade < 10 := lt_of_le_of_ne (not_lt.mp hgt) heq
      have hfl : ⌊t.grade⌋ < 10 := Int.floor_lt.mpr (by exact_mod_cast hlt)
      omega

/-- Claim C8: with max_grade 10 and step 1 the histogram has exactly 10
buckets; a grade exactly equal to 10 is counted in the last bucket (index
9), never past it; a grade strictly above 10 is clamped into bucket 9 and
makes the overflow flag true; and the flag is true exactly when some grade
exceeds 10. The bucketizer returns only counts and the flag — the store and
every other statistic are computed from the unclamped grades. -/
theorem c8_histogram_boundary (students : List Student) :
    histNumBuckets (histEffMax students 10) 1 = 10 ∧
    histogram students 10 (some 1)
      = some ((List.range 10).map (fun i =>
          (histGrades students 10).countP (fun g => decide (bucketIdx 1 g = i))),
        histOverflowFlag students 10) ∧
    (∀ s ∈ students, s.grade = 10 → bucketIdx 1 (histMapGrade 10 s.grade) = 9) ∧
    (∀ s ∈ students, 10 < s.grade →
      bucketIdx 1 (histMapGrade 10 s.grade) = 9 ∧
      histOverflowFlag students 10 = true) ∧
    (histOverflowFlag students 10 = true ↔ ∃ s ∈ students, 10 < s.grade) := by
  refine ⟨?_, ?_, ?_, ?_, ?_⟩
  · rw [c8_effMax, c8_numBuckets]
  · rw [histogram]
    simp only [Option.getD_some, c8_effMax]
    rw [c8_numBuckets]
    rw [fillBuckets_eq 1 (histGrades students 10) (List.replicate 10 0) (fun g hg => by
      rw [List.length_replicate]
      exact c8_inRange students g hg)]
    simp only [Option.map_some']
    congr 2
    rw [List.length_replicate]
    apply List.map_congr_left
    intro i hi
    rw [List.mem_range] at hi
    rw [List.getD_eq_getElem _ _ (by rw [List.length_replicate]; exact hi),
      List.getElem_replicate]
    omega
  · intro s _ hq
    rw [hq, histMapGrade, if_neg (lt_irrefl _), if_pos rfl, c8_clamped_bucket]
  · intro s hs hq
    constructor
    · rw [histMapGrade, if_pos hq, c8_clamped_bucket]
    · rw [histOverflowFlag, List.any_eq_true]
      exact ⟨s, hs, by simpa using hq⟩
  · rw [histOverflowFlag, List.any_eq_true]
    simp

/-- The entry set of the C8 witness: one grade exactly at the maximum, one
above it, one ordinary. -/
def c8W : List Student :=
  [⟨"m", 10, none, none⟩, ⟨"o", 11, none, none⟩, ⟨"p", 3, none, none⟩]

/-- Claim C8 witness: in the concrete store with grades 10, 11 and 3 the
grade 10 lands in bucket 9, the grade 11 is clamped into bucket 9, and the
overflow flag is set. -/
theorem c8_histogram_boundary_witness :
    bucketIdx 1 (histMapGrade 10 (10 : ℚ)) = 9 ∧
    bucketIdx 1 (histMapGrade 10 (11 : ℚ)) = 9 ∧
    histOverflowFlag c8W 10 = true := by
  have h := c8_histogram_boundary c8W
  refine ⟨h.2.2.1 ⟨"m", 10, none, none⟩ (by decide) (by decide), ?_, ?_⟩
  · exact (h.2.2.2.1 ⟨"o", 11, none, none⟩ (by decide) (by decide)).1
  · exact (h.2.2.2.1 ⟨"o", 11, none, none⟩ (by decide) (by decide)).2

end Exms
